import Mathlib

/-!
Verification of the metadata-service core: the lineage graph engine
(`app/utils/graph.py`), the lineage orchestrator
(`app/services/lineage_service.py`), the dataset orchestrator
(`app/services/dataset_service.py`) and the search ranking engine
(`app/services/search_service.py`), as a shallow embedding in Lean 4.

Python `Dict[int, Set[int]]` adjacency maps are modelled as association
lists of `(key, neighbour set)` entries in insertion order, with the
`dict.get(node, set())` view `AdjMap.get` (absent key = empty set); `int`
dataset ids are `Nat`; the database tables are explicit lists inside a
`DBState`; raised exceptions are `Except` errors.
-/

namespace MetadataService

/-! ### `app/utils/graph.py` -/

/-- A Python `Dict[int, Set[int]]` adjacency map: an association list of
(key, neighbour-set) entries, kept in insertion order as CPython does. -/
abbrev AdjMap := List (Nat × Finset Nat)

/-- `adjacency.get(node, set())`: the neighbour set of `node`, or the empty
set when `node` is not a key. -/
def AdjMap.get (m : AdjMap) (n : Nat) : Finset Nat :=
  match m.find? (fun e => e.1 == n) with
  | some e => e.2
  | none => ∅

/-- One iteration of the `build_adjacency` loop:
`adj.setdefault(u, set()).add(d)` — insert `d` into the set stored under
key `u`, creating the entry (at the end, as CPython dicts do) if absent. -/
def addPair (m : AdjMap) (u d : Nat) : AdjMap :=
  match m with
  | [] => [(u, {d})]
  | e :: rest => if e.1 = u then (u, insert d e.2) :: rest else e :: addPair rest u d

/-- `build_adjacency(edges)` over a list of `(upstream_id, downstream_id)`
tuples. -/
def build_adjacency (edges : List (Nat × Nat)) : AdjMap :=
  edges.foldl (fun adj e => addPair adj e.1 e.2) []

/-- All node ids mentioned by the adjacency map (keys and neighbours):
the finite universe the DFS of `would_create_cycle` can ever visit beyond
its start node. -/
def AdjMap.nodes (m : AdjMap) : Finset Nat :=
  m.foldr (fun e s => insert e.1 e.2 ∪ s) ∅

theorem mem_nodes {m : AdjMap} {x : Nat} :
    x ∈ m.nodes ↔ ∃ e ∈ m, x = e.1 ∨ x ∈ e.2 := by
  induction m with
  | nil => simp [AdjMap.nodes]
  | cons e rest ih =>
    simp only [AdjMap.nodes, List.foldr_cons, Finset.mem_union, Finset.mem_insert,
      List.mem_cons] at *
    constructor
    · rintro (h | h)
      · exact ⟨e, Or.inl rfl, h⟩
      · obtain ⟨e', he', h'⟩ := ih.mp h
        exact ⟨e', Or.inr he', h'⟩
    · rintro ⟨e', (rfl | he'), h'⟩
      · exact Or.inl h'
      · exact Or.inr (ih.mpr ⟨e', he', h'⟩)

theorem get_subset_nodes (m : AdjMap) (n : Nat) : m.get n ⊆ m.nodes := by
  intro x hx
  unfold AdjMap.get at hx
  cases hfind : m.find? (fun e => e.1 == n) with
  | none => rw [hfind] at hx; simp at hx
  | some e =>
    rw [hfind] at hx
    exact mem_nodes.mpr ⟨e, List.mem_of_find?_eq_some hfind, Or.inr hx⟩

theorem get_eq_empty_of_not_mem_nodes {m : AdjMap} {n : Nat}
    (h : n ∉ m.nodes) : m.get n = ∅ := by
  unfold AdjMap.get
  cases hfind : m.find? (fun e => e.1 == n) with
  | none => rfl
  | some e =>
    have he : e ∈ m := List.mem_of_find?_eq_some hfind
    have hp : e.1 = n := by simpa using List.find?_some hfind
    exact absurd (mem_nodes.mpr ⟨e, he, Or.inl hp.symm⟩) h

/-- The `while stack:` loop of `would_create_cycle`: pop a node; report
success if it is `upstream`; skip it if already visited; otherwise mark it
visited and push its not-yet-visited neighbours (a Python set iterates in an
unspecified order; we iterate it in ascending order).  The list head is the
top of the stack. -/
def dfs (upstream : Nat) (adjacency : AdjMap) (stack : List Nat)
    (visited : Finset Nat) : Bool :=
  match stack with
  | [] => false
  | node :: rest =>
    if node = upstream then true
    else if hvis : node ∈ visited then dfs upstream adjacency rest visited
    else
      dfs upstream adjacency
        (((adjacency.get node).filter (fun x => x ∉ visited)).sort (· ≤ ·) ++ rest)
        (insert node visited)
termination_by ((adjacency.nodes \ visited).card, stack.length)
decreasing_by
  · exact Prod.Lex.right _ (Nat.lt_succ_self _)
  · by_cases hn : node ∈ adjacency.nodes
    · apply Prod.Lex.left
      apply Finset.card_lt_card
      constructor
      · intro x hx
        simp only [Finset.mem_sdiff, Finset.mem_insert] at hx ⊢
        exact ⟨hx.1, fun h => hx.2 (Or.inr h)⟩
      · intro hsub
        have hmem : node ∈ adjacency.nodes \ visited := Finset.mem_sdiff.mpr ⟨hn, hvis⟩
        have := hsub hmem
        simp at this
    · have hempty : adjacency.get node = ∅ := get_eq_empty_of_not_mem_nodes hn
      have hsd : adjacency.nodes \ insert node visited = adjacency.nodes \ visited := by
        ext x
        simp only [Finset.mem_sdiff, Finset.mem_insert]
        constructor
        · rintro ⟨hx, h⟩; exact ⟨hx, fun hv => h (Or.inr hv)⟩
        · rintro ⟨hx, h⟩
          refine ⟨hx, fun hv => ?_⟩
          rcases hv with rfl | hv
          · exact hn hx
          · exact h hv
      rw [hsd, hempty]
      exact Prod.Lex.right _ (by simp)

/-- `would_create_cycle(upstream_id, downstream_id, adjacency)`: true iff
adding the edge `upstream_id → downstream_id` would create a cycle.  A
self-loop is always a cycle; otherwise DFS from `downstream_id` along the
existing forward edges, looking for `upstream_id`. -/
def would_create_cycle (upstream_id downstream_id : Nat) (adjacency : AdjMap) : Bool :=
  if upstream_id = downstream_id then true
  else dfs upstream_id adjacency [downstream_id] ∅

/-- One forward edge recorded in the adjacency map. -/
def Step (adjacency : AdjMap) (a b : Nat) : Prop := b ∈ adjacency.get a

/-- `u` is reachable from `d` by following the forward edges of `adjacency`. -/
def Reaches (adjacency : AdjMap) (d u : Nat) : Prop :=
  Relation.ReflTransGen (Step adjacency) d u

theorem dfs_sound {upstream : Nat} {adjacency : AdjMap} :
    ∀ {stack : List Nat} {visited : Finset Nat},
      dfs upstream adjacency stack visited = true →
      ∃ s ∈ stack, Reaches adjacency s upstream := by
  intro stack visited h
  induction stack, visited using dfs.induct upstream adjacency with
  | case1 visited => simp [dfs] at h
  | case2 visited rest =>
    exact ⟨upstream, List.mem_cons_self .., Relation.ReflTransGen.refl⟩
  | case3 visited node rest hne hvis ih =>
    rw [dfs, if_neg hne, dif_pos hvis] at h
    obtain ⟨s, hs, hr⟩ := ih h
    exact ⟨s, List.mem_cons_of_mem _ hs, hr⟩
  | case4 visited node rest hne hvis ih =>
    rw [dfs, if_neg hne, dif_neg hvis] at h
    obtain ⟨s, hs, hr⟩ := ih h
    rcases List.mem_append.mp hs with hs | hs
    · have hstep : s ∈ adjacency.get node := by
        have := (Finset.mem_sort (α := Nat) (· ≤ ·)).mp hs
        exact (Finset.mem_filter.mp this).1
      exact ⟨node, List.mem_cons_self ..,
        Relation.ReflTransGen.head hstep hr⟩
    · exact ⟨s, List.mem_cons_of_mem _ hs, hr⟩

/-- A set closed under the forward edges and containing `s` contains
everything reachable from `s`. -/
theorem mem_of_reaches {adjacency : AdjMap} {S : Finset Nat}
    (hclosed : ∀ v ∈ S, ∀ y, Step adjacency v y → y ∈ S)
    {s u : Nat} (hs : s ∈ S) (hr : Reaches adjacency s u) : u ∈ S := by
  induction hr with
  | refl => exact hs
  | tail _ hstep ih => exact hclosed _ ih _ hstep

theorem dfs_complete {upstream : Nat} {adjacency : AdjMap} :
    ∀ {stack : List Nat} {visited : Finset Nat},
      dfs upstream adjacency stack visited = false →
      (∀ v ∈ visited, ∀ y, Step adjacency v y → y ∈ visited ∨ y ∈ stack) →
      upstream ∉ visited →
      ∀ s, (s ∈ stack ∨ s ∈ visited) → ¬ Reaches adjacency s upstream := by
  intro stack visited h hclosed hu
  induction stack, visited using dfs.induct upstream adjacency with
  | case1 visited =>
    intro s hs hr
    rcases hs with hs | hs
    · simp at hs
    · have hcl : ∀ v ∈ visited, ∀ y, Step adjacency v y → y ∈ visited := by
        intro v hv y hy
        rcases hclosed v hv y hy with h' | h'
        · exact h'
        · simp at h'
      exact hu (mem_of_reaches hcl hs hr)
  | case2 visited rest => rw [dfs, if_pos rfl] at h; simp at h
  | case3 visited node rest hne hvis ih =>
    rw [dfs, if_neg hne, dif_pos hvis] at h
    have hcl : ∀ v ∈ visited, ∀ y, Step adjacency v y → y ∈ visited ∨ y ∈ rest := by
      intro v hv y hy
      rcases hclosed v hv y hy with h' | h'
      · exact Or.inl h'
      · rcases List.mem_cons.mp h' with rfl | h''
        · exact Or.inl hvis
        · exact Or.inr h''
    intro s hs
    rcases hs with hs | hs
    · rcases List.mem_cons.mp hs with rfl | hs
      · exact ih h hcl hu s (Or.inr hvis)
      · exact ih h hcl hu s (Or.inl hs)
    · exact ih h hcl hu s (Or.inr hs)
  | case4 visited node rest hne hvis ih =>
    rw [dfs, if_neg hne, dif_neg hvis] at h
    have hu' : upstream ∉ insert node visited := by
      simp only [Finset.mem_insert]
      rintro (rfl | hv)
      · exact hne rfl
      · exact hu hv
    have hcl : ∀ v ∈ insert node visited, ∀ y, Step adjacency v y →
        y ∈ insert node visited ∨
        y ∈ ((adjacency.get node).filter (fun x => x ∉ visited)).sort (· ≤ ·) ++ rest := by
      intro v hv y hy
      rcases Finset.mem_insert.mp hv with rfl | hv
      · by_cases hyv : y ∈ visited
        · exact Or.inl (Finset.mem_insert_of_mem hyv)
        · refine Or.inr (List.mem_append.mpr (Or.inl ?_))
          exact (Finset.mem_sort (α := Nat) (· ≤ ·)).mpr (Finset.mem_filter.mpr ⟨hy, hyv⟩)
      · rcases hclosed v hv y hy with h' | h'
        · exact Or.inl (Finset.mem_insert_of_mem h')
        · rcases List.mem_cons.mp h' with rfl | h''
          · exact Or.inl (Finset.mem_insert_self _ _)
          · exact Or.inr (List.mem_append.mpr (Or.inr h''))
    intro s hs
    rcases hs with hs | hs
    · rcases List.mem_cons.mp hs with rfl | hs
      · exact ih h hcl hu' s (Or.inr (Finset.mem_insert_self _ _))
      · exact ih h hcl hu' s (Or.inl (List.mem_append.mpr (Or.inr hs)))
    · exact ih h hcl hu' s (Or.inr (Finset.mem_insert_of_mem hs))

/-- The full characterisation of `would_create_cycle` (shared helper). -/
theorem would_create_cycle_iff (u d : Nat) (adjacency : AdjMap) :
    would_create_cycle u d adjacency = true ↔ (u = d ∨ Reaches adjacency d u) := by
  unfold would_create_cycle
  by_cases h : u = d
  · simp [h, Reaches]
  · rw [if_neg h]
    constructor
    · intro ht
      obtain ⟨s, hs, hr⟩ := dfs_sound ht
      rcases List.mem_cons.mp hs with rfl | hs
      · exact Or.inr hr
      · simp at hs
    · rintro (rfl | hr)
      · exact absurd rfl h
      · by_contra hfalse
        have hf : dfs u adjacency [d] ∅ = false := by
          cases hb : dfs u adjacency [d] ∅
          · rfl
          · exact absurd hb hfalse
        exact dfs_complete hf (by simp) (by simp) d
          (Or.inl (List.mem_cons_self ..)) hr

/-- The DFS loop of `would_create_cycle` with an explicit iteration budget:
`dfsFuel (n+1) …` performs one iteration of the `while stack:` loop and
recurses with budget `n`; `none` means the budget ran out before the loop
finished.  It makes the loop's iteration count observable. -/
def dfsFuel (fuel : Nat) (upstream : Nat) (adjacency : AdjMap) (stack : List Nat)
    (visited : Finset Nat) : Option Bool :=
  match fuel with
  | 0 => none
  | fuel + 1 =>
    match stack with
    | [] => some false
    | node :: rest =>
      if node = upstream then some true
      else if node ∈ visited then dfsFuel fuel upstream adjacency rest visited
      else
        dfsFuel fuel upstream adjacency
          (((adjacency.get node).filter (fun x => x ∉ visited)).sort (· ≤ ·) ++ rest)
          (insert node visited)

theorem dfsFuel_mono {upstream : Nat} {adjacency : AdjMap} :
    ∀ {fuel fuel' : Nat} {stack : List Nat} {visited : Finset Nat} {b : Bool},
      fuel ≤ fuel' →
      dfsFuel fuel upstream adjacency stack visited = some b →
      dfsFuel fuel' upstream adjacency stack visited = some b := by
  intro fuel
  induction fuel with
  | zero => intro fuel' stack visited b _ h; simp [dfsFuel] at h
  | succ n ih =>
    intro fuel' stack visited b hle h
    obtain ⟨m, rfl⟩ := Nat.exists_eq_add_of_le hle
    have harith : n + 1 + m = (n + m) + 1 := by omega
    rw [harith]
    match stack with
    | [] => simpa [dfsFuel] using h
    | node :: rest =>
      rw [dfsFuel] at h ⊢
      by_cases h1 : node = upstream
      · simpa [h1] using h
      · rw [if_neg h1] at h ⊢
        by_cases h2 : node ∈ visited
        · rw [if_pos h2] at h ⊢; exact ih (Nat.le_add_right n m) h
        · rw [if_neg h2] at h ⊢; exact ih (Nat.le_add_right n m) h

/-- A budget of `|stack| + |unvisited universe| · (|universe| + 1) + 1`
iterations always suffices for the DFS loop: each iteration either pops a
node for good or marks a new node visited and pushes at most `|universe|`
neighbours. -/
theorem dfsFuel_bound {upstream : Nat} {adjacency : AdjMap} :
    ∀ {stack : List Nat} {visited : Finset Nat},
      dfsFuel
          (stack.length + (adjacency.nodes \ visited).card * (adjacency.nodes.card + 1) + 1)
          upstream adjacency stack visited
        = some (dfs upstream adjacency stack visited) := by
  intro stack visited
  induction stack, visited using dfs.induct upstream adjacency with
  | case1 visited =>
    rw [dfs]
    have h0 : ([] : List Nat).length + (adjacency.nodes \ visited).card * (adjacency.nodes.card + 1) + 1
        = ((adjacency.nodes \ visited).card * (adjacency.nodes.card + 1)) + 1 := by
      simp
    rw [h0, dfsFuel]
  | case2 visited rest =>
    rw [dfs, if_pos rfl]
    have h0 : (upstream :: rest).length + (adjacency.nodes \ visited).card * (adjacency.nodes.card + 1) + 1
        = (rest.length + (adjacency.nodes \ visited).card * (adjacency.nodes.card + 1) + 1) + 1 := by
      rw [List.length_cons]; omega
    rw [h0, dfsFuel, if_pos rfl]
  | case3 visited node rest hne hvis ih =>
    rw [dfs, if_neg hne, dif_pos hvis]
    have h0 : (node :: rest).length + (adjacency.nodes \ visited).card * (adjacency.nodes.card + 1) + 1
        = (rest.length + (adjacency.nodes \ visited).card * (adjacency.nodes.card + 1) + 1) + 1 := by
      rw [List.length_cons]; omega
    rw [h0, dfsFuel, if_neg hne, if_pos hvis]
    exact ih
  | case4 visited node rest hne hvis ih =>
    rw [dfs, if_neg hne, dif_neg hvis]
    have h0 : (node :: rest).length + (adjacency.nodes \ visited).card * (adjacency.nodes.card + 1) + 1
        = (rest.length + (adjacency.nodes \ visited).card * (adjacency.nodes.card + 1) + 1) + 1 := by
      rw [List.length_cons]; omega
    rw [h0, dfsFuel, if_neg hne, if_neg hvis]
    refine dfsFuel_mono ?_ ih
    have hp : (((adjacency.get node).filter (fun x => x ∉ visited)).sort (· ≤ ·)).length
        ≤ adjacency.nodes.card := by
      rw [Finset.length_sort]
      exact Finset.card_le_card
        (fun x hx => get_subset_nodes adjacency node (Finset.mem_filter.mp hx).1)
    rw [List.length_append]
    by_cases hn : node ∈ adjacency.nodes
    · have hkpos : 0 < (adjacency.nodes \ visited).card :=
        Finset.card_pos.mpr ⟨node, Finset.mem_sdiff.mpr ⟨hn, hvis⟩⟩
      have hk' : (adjacency.nodes \ insert node visited).card
          = (adjacency.nodes \ visited).card - 1 := by
        rw [Finset.sdiff_insert, Finset.card_erase_of_mem (Finset.mem_sdiff.mpr ⟨hn, hvis⟩)]
      have hsub : ((adjacency.nodes \ visited).card - 1) * (adjacency.nodes.card + 1)
          = (adjacency.nodes \ visited).card * (adjacency.nodes.card + 1)
            - (adjacency.nodes.card + 1) := by
        have := Nat.sub_mul (adjacency.nodes \ visited).card 1 (adjacency.nodes.card + 1)
        simpa using this
      have hge : adjacency.nodes.card + 1
          ≤ (adjacency.nodes \ visited).card * (adjacency.nodes.card + 1) :=
        Nat.le_mul_of_pos_left _ hkpos
      rw [hk']
      omega
    · have hempty : adjacency.get node = ∅ := get_eq_empty_of_not_mem_nodes hn
      have hsd : adjacency.nodes \ insert node visited = adjacency.nodes \ visited := by
        ext x
        simp only [Finset.mem_sdiff, Finset.mem_insert]
        constructor
        · rintro ⟨hx, h⟩; exact ⟨hx, fun hv => h (Or.inr hv)⟩
        · rintro ⟨hx, h⟩
          refine ⟨hx, fun hv => ?_⟩
          rcases hv with rfl | hv
          · exact hn hx
          · exact h hv
      rw [hsd, hempty]
      simp

/-- C1: `would_create_cycle(u, d, adjacency)` returns true iff `u = d` or
`u` is reachable from `d` by following the forward edges recorded in the
adjacency map; in particular `would_create_cycle(x, x, m)` is true for
every `x` and every adjacency map `m`, including the empty map. -/
theorem C1_would_create_cycle_correct (u d : Nat) (adjacency : AdjMap) :
    (would_create_cycle u d adjacency = true ↔ u = d ∨ Reaches adjacency d u)
    ∧ (∀ x : Nat, ∀ m : AdjMap, would_create_cycle x x m = true)
    ∧ would_create_cycle u u ([] : AdjMap) = true := by
  refine ⟨would_create_cycle_iff u d adjacency, fun x m => ?_, ?_⟩
  · simp [would_create_cycle]
  · simp [would_create_cycle]

/-- C10: the explicit-stack traversal of `would_create_cycle` terminates on
every finite adjacency map — including maps that already contain cycles —
within `|stack| + |unvisited| · (|V| + 1) + 1` loop iterations, because the
visited set grows monotonically inside the finite node universe. -/
theorem C10_dfs_terminates (u d : Nat) (adjacency : AdjMap) (stack : List Nat)
    (visited : Finset Nat) :
    (dfsFuel (stack.length + (adjacency.nodes \ visited).card * (adjacency.nodes.card + 1) + 1)
        u adjacency stack visited = some (dfs u adjacency stack visited))
    ∧ (dfsFuel (adjacency.nodes.card * (adjacency.nodes.card + 1) + 2) u adjacency [d] ∅
        = some (dfs u adjacency [d] ∅)) := by
  refine ⟨dfsFuel_bound, ?_⟩
  have h := @dfsFuel_bound u adjacency [d] ∅
  have h0 : ([d] : List Nat).length + (adjacency.nodes \ ∅).card * (adjacency.nodes.card + 1) + 1
      = adjacency.nodes.card * (adjacency.nodes.card + 1) + 2 := by
    simp only [List.length_singleton, Finset.sdiff_empty]
    omega
  rw [h0] at h
  exact h

theorem get_cons (e : Nat × Finset Nat) (m : AdjMap) (n : Nat) :
    AdjMap.get (e :: m) n = if e.1 = n then e.2 else m.get n := by
  by_cases h : e.1 = n
  · have hb : (e.1 == n) = true := by simpa using h
    simp [AdjMap.get, List.find?_cons_of_pos, hb, h]
  · have hb : ¬ ((fun x : Nat × Finset Nat => x.1 == n) e = true) := by simpa using h
    rw [AdjMap.get, List.find?_cons_of_neg (p := fun x : Nat × Finset Nat => x.1 == n) _ hb,
      if_neg h]
    rfl

theorem get_addPair (m : AdjMap) (u d n : Nat) :
    (addPair m u d).get n = if n = u then insert d (m.get n) else m.get n := by
  induction m with
  | nil =>
    rw [addPair, get_cons]
    by_cases h : n = u
    · subst h
      simp [AdjMap.get]
    · have h' : ¬ u = n := fun hh => h hh.symm
      simp [AdjMap.get, h, h']
  | cons e rest ih =>
    rw [addPair]
    by_cases he : e.1 = u
    · rw [if_pos he]
      simp only [get_cons]
      by_cases h : n = u
      · subst h
        simp [he]
      · have h' : ¬ u = n := fun hh => h hh.symm
        have h'' : ¬ e.1 = n := by rw [he]; exact h'
        simp [h, h', h'']
    · rw [if_neg he]
      simp only [get_cons, ih]
      by_cases h1 : e.1 = n
      · have h2 : ¬ n = u := fun hh => he (h1.trans hh)
        simp [h1, h2]
      · simp [h1]

theorem mem_get_foldl (l : List (Nat × Nat)) :
    ∀ (m : AdjMap) (u d : Nat),
      d ∈ (l.foldl (fun adj e => addPair adj e.1 e.2) m).get u ↔
        (u, d) ∈ l ∨ d ∈ m.get u := by
  induction l with
  | nil => simp
  | cons e l ih =>
    intro m u d
    rw [List.foldl_cons, ih, get_addPair]
    by_cases h : u = e.1
    · subst h
      rw [if_pos rfl]
      simp only [List.mem_cons, Prod.ext_iff, Finset.mem_insert]
      tauto
    · rw [if_neg h]
      simp only [List.mem_cons, Prod.ext_iff]
      constructor
      · rintro (hl | hm)
        · exact Or.inl (Or.inr hl)
        · exact Or.inr hm
      · rintro ((⟨h1, _⟩ | hl) | hm)
        · exact absurd h1 h
        · exact Or.inl hl
        · exact Or.inr hm

/-- Membership view of `build_adjacency`: node `u` maps to exactly the set
of its direct downstream ids in the edge list (shared helper). -/
theorem mem_build_adjacency (l : List (Nat × Nat)) (u d : Nat) :
    d ∈ (build_adjacency l).get u ↔ (u, d) ∈ l := by
  rw [build_adjacency, mem_get_foldl]
  simp [AdjMap.get]

/-- The key list of the adjacency dict, in insertion order. -/
def keys (m : AdjMap) : List Nat := m.map Prod.fst

theorem mem_keys_addPair (m : AdjMap) (a b u : Nat) :
    u ∈ keys (addPair m a b) ↔ u = a ∨ u ∈ keys m := by
  induction m with
  | nil => simp [addPair, keys]
  | cons e rest ih =>
    by_cases he : e.1 = a
    · rw [addPair, if_pos he]
      simp [keys, he]
    · rw [addPair, if_neg he]
      simp only [keys, List.map_cons, List.mem_cons] at ih ⊢
      rw [ih]
      tauto

theorem mem_keys_foldl (l : List (Nat × Nat)) :
    ∀ (m : AdjMap) (u : Nat),
      u ∈ keys (l.foldl (fun adj e => addPair adj e.1 e.2) m) ↔
        (∃ d, (u, d) ∈ l) ∨ u ∈ keys m := by
  induction l with
  | nil => simp
  | cons e l ih =>
    intro m u
    rw [List.foldl_cons, ih, mem_keys_addPair]
    constructor
    · rintro (⟨d, hd⟩ | rfl | hm)
      · exact Or.inl ⟨d, List.mem_cons_of_mem _ hd⟩
      · exact Or.inl ⟨e.2, List.mem_cons_self ..⟩
      · exact Or.inr hm
    · rintro (⟨d, hd⟩ | hm)
      · rcases List.mem_cons.mp hd with heq | hd
        · exact Or.inr (Or.inl (congrArg Prod.fst heq))
        · exact Or.inl ⟨d, hd⟩
      · exact Or.inr (Or.inr hm)

/-- A node is a key of `build_adjacency l` iff it is the source of some
edge of `l` (shared helper). -/
theorem mem_keys_build_adjacency (l : List (Nat × Nat)) (u : Nat) :
    u ∈ keys (build_adjacency l) ↔ ∃ d, (u, d) ∈ l := by
  rw [build_adjacency, mem_keys_foldl]
  simp [keys]

/-- C8: `build_adjacency` is order-independent and idempotent under
duplicate pairs: a permutation of the input yields the same mapping (same
`get` view on every node and the same key set), appending a pair already
present leaves the result unchanged, and each node id maps to the set of
its direct downstream ids. -/
theorem C8_build_adjacency_deterministic (l l' : List (Nat × Nat)) (u d : Nat)
    (hperm : l.Perm l') (hmem : (u, d) ∈ l) :
    (∀ n, (build_adjacency l).get n = (build_adjacency l').get n)
    ∧ (∀ n, n ∈ keys (build_adjacency l) ↔ n ∈ keys (build_adjacency l'))
    ∧ (∀ n, (build_adjacency (l ++ [(u, d)])).get n = (build_adjacency l).get n)
    ∧ (∀ a b, b ∈ (build_adjacency l).get a ↔ (a, b) ∈ l) := by
  refine ⟨fun n => ?_, fun n => ?_, fun n => ?_, fun a b => mem_build_adjacency l a b⟩
  · ext x
    rw [mem_build_adjacency, mem_build_adjacency, hperm.mem_iff]
  · rw [mem_keys_build_adjacency, mem_keys_build_adjacency]
    exact exists_congr fun x => hperm.mem_iff
  · ext x
    rw [mem_build_adjacency, mem_build_adjacency, List.mem_append]
    constructor
    · rintro (h | h)
      · exact h
      · simp only [List.mem_singleton, Prod.mk.injEq] at h
        obtain ⟨rfl, rfl⟩ := h
        exact hmem
    · exact Or.inl

theorem C8_witness :
    ([((1 : Nat), (2 : Nat)), (2, 3)]).Perm [(2, 3), (1, 2)]
    ∧ ((1, 2) ∈ [((1 : Nat), (2 : Nat)), (2, 3)])
    ∧ (build_adjacency [(1, 2), (2, 3)]).get 1 = (build_adjacency [(2, 3), (1, 2)]).get 1
    ∧ (build_adjacency ([(1, 2), (2, 3)] ++ [(1, 2)])).get 2
        = (build_adjacency [(1, 2), (2, 3)]).get 2
    ∧ (3 ∈ (build_adjacency [((1 : Nat), (2 : Nat)), (2, 3)]).get 2 ↔ ((2, 3) ∈ [((1 : Nat), (2 : Nat)), (2, 3)])) :=
  ⟨List.Perm.swap (2, 3) (1, 2) [],
   List.mem_cons_self ..,
   (C8_build_adjacency_deterministic [(1, 2), (2, 3)] [(2, 3), (1, 2)] 1 2
      (List.Perm.swap (2, 3) (1, 2) []) (List.mem_cons_self ..)).1 1,
   (C8_build_adjacency_deterministic [(1, 2), (2, 3)] [(2, 3), (1, 2)] 1 2
      (List.Perm.swap (2, 3) (1, 2) []) (List.mem_cons_self ..)).2.2.1 2,
   (C8_build_adjacency_deterministic [(1, 2), (2, 3)] [(2, 3), (1, 2)] 1 2
      (List.Perm.swap (2, 3) (1, 2) []) (List.mem_cons_self ..)).2.2.2 2 3⟩

/-! ### Data model (`app/models/orm.py`), shallowly: the relevant columns of
the `datasets`, `dataset_columns` and `lineage` tables. -/

structure ColumnRec where
  name : String
  data_type : String
  description : Option String
deriving DecidableEq

structure DatasetRec where
  id : Nat
  fqn : String
  connection_name : String
  database_name : String
  schema_name : String
  table_name : String
  source_system : String
  description : Option String
  columns : List ColumnRec
deriving DecidableEq

/-- The repository state: the dataset rows (with their owned columns
embedded), the lineage edge rows as `(upstream_id, downstream_id)` pairs,
and the next auto-increment surrogate id. -/
structure DBState where
  datasets : List DatasetRec
  edges : List (Nat × Nat)
  nextId : Nat
deriving DecidableEq

/-- `app/exceptions.py` plus the pydantic validation error raised at the
request boundary. -/
inductive ServiceError where
  | notFound (msg : String)
  | conflict (msg : String)
  | cycle (msg : String)
  | validation (msg : String)
deriving DecidableEq

/-- `dataset_service.get_dataset_by_fqn`: first dataset row with this FQN. -/
def get_dataset_by_fqn (db : DBState) (fqn : String) : Option DatasetRec :=
  db.datasets.find? (fun ds => ds.fqn == fqn)

/-! ### `app/services/lineage_service.py` -/

/-- The message of the `CycleError` raised by `add_lineage` (the f-string
of the source, written as explicit concatenation). -/
def cycleMessage (upstream_fqn downstream_fqn : String) : String :=
  "Cannot add lineage '" ++ upstream_fqn ++ "' → '" ++ downstream_fqn ++
    "': this would create a cycle. '" ++ upstream_fqn ++
    "' is already downstream of '" ++ downstream_fqn ++ "' (directly or transitively)."

/-- `lineage_service.add_lineage`: resolve both FQNs, reject duplicates,
reject cycles (over the full current edge set), else persist the edge. -/
def add_lineage (db : DBState) (upstream_fqn downstream_fqn : String) :
    Except ServiceError (DBState × (Nat × Nat)) :=
  match get_dataset_by_fqn db upstream_fqn with
  | none => .error (.notFound ("Upstream dataset '" ++ upstream_fqn ++ "' not found."))
  | some upstream =>
    match get_dataset_by_fqn db downstream_fqn with
    | none => .error (.notFound ("Downstream dataset '" ++ downstream_fqn ++ "' not found."))
    | some downstream =>
      if (upstream.id, downstream.id) ∈ db.edges then
        .error (.conflict ("Lineage edge '" ++ upstream_fqn ++ "' → '" ++ downstream_fqn ++
          "' already exists."))
      else
        if would_create_cycle upstream.id downstream.id (build_adjacency db.edges) then
          .error (.cycle (cycleMessage upstream_fqn downstream_fqn))
        else
          .ok ({ db with edges := db.edges ++ [(upstream.id, downstream.id)] },
               (upstream.id, downstream.id))

/-- `lineage_service.remove_lineage`: resolve both FQNs, delete the exact
edge, `NotFound` if either dataset or the edge is absent. -/
def remove_lineage (db : DBState) (upstream_fqn downstream_fqn : String) :
    Except ServiceError DBState :=
  match get_dataset_by_fqn db upstream_fqn with
  | none => .error (.notFound ("Upstream dataset '" ++ upstream_fqn ++ "' not found."))
  | some upstream =>
    match get_dataset_by_fqn db downstream_fqn with
    | none => .error (.notFound ("Downstream dataset '" ++ downstream_fqn ++ "' not found."))
    | some downstream =>
      if (upstream.id, downstream.id) ∈ db.edges then
        .ok { db with edges := db.edges.erase (upstream.id, downstream.id) }
      else
        .error (.notFound ("Lineage edge '" ++ upstream_fqn ++ "' → '" ++ downstream_fqn ++
          "' does not exist."))

/-- `LineageCreate.check_not_self_loop`: the pydantic model validator that
runs while the request payload is parsed, before the service (and hence
before any repository lookup) is reached. -/
def lineageCreate_validate (upstream_fqn downstream_fqn : String) :
    Except ServiceError (String × String) :=
  if upstream_fqn = downstream_fqn then
    .error (.validation "upstream_fqn and downstream_fqn must be different datasets.")
  else .ok (upstream_fqn, downstream_fqn)

/-- The `POST /lineage` pipeline of `app/routers/lineage.py`: payload
validation first, then `lineage_service.add_lineage`. -/
def route_add_lineage (db : DBState) (upstream_fqn downstream_fqn : String) :
    Except ServiceError (DBState × (Nat × Nat)) :=
  match lineageCreate_validate upstream_fqn downstream_fqn with
  | .error e => .error e
  | .ok (u, d) => add_lineage db u d

/-- C3: a self-referential edge-add request is rejected by the payload
validator with a `Validation` error, for every repository state — in
particular also when the FQN does not resolve to any dataset — so it never
reaches the `NotFound` resolution of step 1 nor persistence. -/
theorem C3_self_loop_rejected_before_lookup (db : DBState) (fqn : String) :
    (route_add_lineage db fqn fqn
      = .error (.validation "upstream_fqn and downstream_fqn must be different datasets."))
    ∧ (∀ db' e, route_add_lineage db fqn fqn ≠ .ok (db', e)) := by
  constructor
  · simp [route_add_lineage, lineageCreate_validate]
  · intro db' e h
    simp [route_add_lineage, lineageCreate_validate] at h

/-- C4: the checks of `add_lineage` fire in exactly this order — upstream
`NotFound`, downstream `NotFound`, duplicate `Conflict`, `Cycle` (whose
message spells out both endpoints), then persistence of the new edge. -/
theorem C4_add_lineage_check_order (db : DBState) (ufqn dfqn : String) :
    (get_dataset_by_fqn db ufqn = none →
      add_lineage db ufqn dfqn
        = .error (.notFound ("Upstream dataset '" ++ ufqn ++ "' not found.")))
    ∧ (∀ up, get_dataset_by_fqn db ufqn = some up →
        get_dataset_by_fqn db dfqn = none →
        add_lineage db ufqn dfqn
          = .error (.notFound ("Downstream dataset '" ++ dfqn ++ "' not found.")))
    ∧ (∀ up dn, get_dataset_by_fqn db ufqn = some up →
        get_dataset_by_fqn db dfqn = some dn →
        (up.id, dn.id) ∈ db.edges →
        add_lineage db ufqn dfqn
          = .error (.conflict ("Lineage edge '" ++ ufqn ++ "' → '" ++ dfqn ++
              "' already exists.")))
    ∧ (∀ up dn, get_dataset_by_fqn db ufqn = some up →
        get_dataset_by_fqn db dfqn = some dn →
        (up.id, dn.id) ∉ db.edges →
        would_create_cycle up.id dn.id (build_adjacency db.edges) = true →
        add_lineage db ufqn dfqn = .error (.cycle (cycleMessage ufqn dfqn)))
    ∧ (∀ up dn, get_dataset_by_fqn db ufqn = some up →
        get_dataset_by_fqn db dfqn = some dn →
        (up.id, dn.id) ∉ db.edges →
        would_create_cycle up.id dn.id (build_adjacency db.edges) = false →
        add_lineage db ufqn dfqn
          = .ok ({ db with edges := db.edges ++ [(up.id, dn.id)] }, (up.id, dn.id)))
    ∧ (∃ s1 s2 s3, cycleMessage ufqn dfqn = s1 ++ ufqn ++ s2 ++ dfqn ++ s3) := by
  refine ⟨fun h => ?_, fun up hu h => ?_, fun up dn hu hd h => ?_,
    fun up dn hu hd hdup hcyc => ?_, fun up dn hu hd hdup hcyc => ?_, ?_⟩
  · rw [add_lineage, h]
  · simp only [add_lineage, hu, h]
  · simp only [add_lineage, hu, hd]
    rw [if_pos h]
  · simp only [add_lineage, hu, hd]
    rw [if_neg hdup, if_pos hcyc]
  · simp only [add_lineage, hu, hd]
    rw [if_neg hdup, if_neg (by simp [hcyc])]
  · refine ⟨"Cannot add lineage '", "' → '",
      "': this would create a cycle. '" ++ ufqn ++ "' is already downstream of '"
        ++ dfqn ++ "' (directly or transitively).", ?_⟩
    rw [cycleMessage]
    simp [String.append_assoc]

theorem C4_witness :
    (get_dataset_by_fqn (DBState.mk [] [] 0) "a" = none)
    ∧ (add_lineage (DBState.mk [] [] 0) "a" "b"
        = .error (.notFound ("Upstream dataset '" ++ "a" ++ "' not found."))) :=
  ⟨rfl, (C4_add_lineage_check_order (DBState.mk [] [] 0) "a" "b").1 rfl⟩

/-! ### Acyclicity of the stored edge set (claim C2) -/

/-- One stored lineage edge, as a step relation on dataset ids. -/
def EdgeStep (edges : List (Nat × Nat)) (a b : Nat) : Prop := (a, b) ∈ edges

/-- The edge set, viewed as a directed graph over dataset ids, has no
(nonempty) cycle. -/
def Acyclic (edges : List (Nat × Nat)) : Prop :=
  ∀ n, ¬ Relation.TransGen (EdgeStep edges) n n

theorem acyclic_nil : Acyclic [] := by
  intro n h
  cases h with
  | single h => simp [EdgeStep] at h
  | tail _ h => simp [EdgeStep] at h

/-- Reachability over `build_adjacency edges` is reachability over the raw
edge list. -/
theorem reaches_build_iff (edges : List (Nat × Nat)) (a b : Nat) :
    Reaches (build_adjacency edges) a b ↔ Relation.ReflTransGen (EdgeStep edges) a b :=
  ⟨Relation.ReflTransGen.mono fun x y h => (mem_build_adjacency edges x y).mp h,
   Relation.ReflTransGen.mono fun x y h => (mem_build_adjacency edges x y).mpr h⟩

/-- Any path in the graph extended by the single edge `(u, d)` is either a
path of the old graph, or passes through the new edge. -/
theorem rtg_append_single {edges : List (Nat × Nat)} {u d a b : Nat}
    (h : Relation.ReflTransGen (EdgeStep (edges ++ [(u, d)])) a b) :
    Relation.ReflTransGen (EdgeStep edges) a b ∨
      (Relation.ReflTransGen (EdgeStep edges) a u ∧
        Relation.ReflTransGen (EdgeStep edges) d b) := by
  induction h with
  | refl => exact Or.inl .refl
  | tail hac hstep ih =>
    rcases List.mem_append.mp hstep with hold | hnew
    · rcases ih with h1 | ⟨h1, h2⟩
      · exact Or.inl (h1.tail hold)
      · exact Or.inr ⟨h1, h2.tail hold⟩
    · simp only [List.mem_singleton, Prod.mk.injEq] at hnew
      obtain ⟨rfl, rfl⟩ := hnew
      rcases ih with h1 | ⟨h1, _⟩
      · exact Or.inr ⟨h1, .refl⟩
      · exact Or.inr ⟨h1, .refl⟩

/-- Appending an edge `(u, d)` with `u` not reachable from `d` keeps an
acyclic edge set acyclic. -/
theorem acyclic_append {edges : List (Nat × Nat)} {u d : Nat}
    (hac : Acyclic edges)
    (hnr : ¬ Relation.ReflTransGen (EdgeStep edges) d u) :
    Acyclic (edges ++ [(u, d)]) := by
  intro n hcyc
  obtain ⟨m, hstep, hrest⟩ := Relation.TransGen.head'_iff.mp hcyc
  rcases List.mem_append.mp hstep with hold | hnew
  · rcases rtg_append_single hrest with h1 | ⟨h1, h2⟩
    · exact hac n (Relation.TransGen.head' hold h1)
    · exact hnr ((h2.tail hold).trans h1)
  · simp only [List.mem_singleton, Prod.mk.injEq] at hnew
    obtain ⟨rfl, rfl⟩ := hnew
    rcases rtg_append_single hrest with h1 | ⟨_, h2⟩
    · exact hnr h1
    · exact hnr h2

/-- Deleting an edge keeps an acyclic edge set acyclic. -/
theorem acyclic_erase {edges : List (Nat × Nat)} (e : Nat × Nat)
    (hac : Acyclic edges) : Acyclic (edges.erase e) := by
  intro n hcyc
  exact hac n (hcyc.mono fun a b hab => List.erase_subset e edges hab)

/-- A request of the edge-mutation API. -/
inductive LineageOp where
  | add (upstream_fqn downstream_fqn : String)
  | remove (upstream_fqn downstream_fqn : String)

/-- Run one edge-mutation request against the repository: on success the
new state is committed, a raised error leaves the state unchanged (the
service raises before any write). -/
def applyOp (db : DBState) (op : LineageOp) : DBState :=
  match op with
  | .add u d =>
    match add_lineage db u d with
    | .ok p => p.1
    | .error _ => db
  | .remove u d =>
    match remove_lineage db u d with
    | .ok db' => db'
    | .error _ => db

theorem add_lineage_ok {db db' : DBState} {ufqn dfqn : String} {e : Nat × Nat}
    (h : add_lineage db ufqn dfqn = .ok (db', e)) :
    ∃ up dn, get_dataset_by_fqn db ufqn = some up
      ∧ get_dataset_by_fqn db dfqn = some dn
      ∧ (up.id, dn.id) ∉ db.edges
      ∧ would_create_cycle up.id dn.id (build_adjacency db.edges) = false
      ∧ db' = { db with edges := db.edges ++ [(up.id, dn.id)] }
      ∧ e = (up.id, dn.id) := by
  unfold add_lineage at h
  cases hu : get_dataset_by_fqn db ufqn with
  | none => rw [hu] at h; simp at h
  | some up =>
    rw [hu] at h
    cases hd : get_dataset_by_fqn db dfqn with
    | none => rw [hd] at h; simp at h
    | some dn =>
      rw [hd] at h
      simp only at h
      by_cases hdup : (up.id, dn.id) ∈ db.edges
      · rw [if_pos hdup] at h; simp at h
      · rw [if_neg hdup] at h
        cases hcyc : would_create_cycle up.id dn.id (build_adjacency db.edges) with
        | true => rw [if_pos hcyc] at h; simp at h
        | false =>
          rw [if_neg (by simp [hcyc])] at h
          simp only [Except.ok.injEq, Prod.mk.injEq] at h
          exact ⟨up, dn, rfl, rfl, hdup, hcyc, h.1.symm, h.2.symm⟩

theorem remove_lineage_ok {db db' : DBState} {ufqn dfqn : String}
    (h : remove_lineage db ufqn dfqn = .ok db') :
    ∃ up dn : DatasetRec, db' = { db with edges := db.edges.erase (up.id, dn.id) } := by
  unfold remove_lineage at h
  cases hu : get_dataset_by_fqn db ufqn with
  | none => rw [hu] at h; simp at h
  | some up =>
    rw [hu] at h
    cases hd : get_dataset_by_fqn db dfqn with
    | none => rw [hd] at h; simp at h
    | some dn =>
      rw [hd] at h
      simp only at h
      by_cases hmem : (up.id, dn.id) ∈ db.edges
      · rw [if_pos hmem] at h
        simp only [Except.ok.injEq] at h
        exact ⟨up, dn, h.symm⟩
      · rw [if_neg hmem] at h; simp at h

theorem applyOp_preserves_acyclic (db : DBState) (op : LineageOp)
    (h : Acyclic db.edges) : Acyclic ((applyOp db op).edges) := by
  cases op with
  | add u d =>
    cases hres : add_lineage db u d with
    | error e =>
      have happ : applyOp db (.add u d) = db := by simp [applyOp, hres]
      rw [happ]; exact h
    | ok p =>
      obtain ⟨db', e⟩ := p
      have happ : applyOp db (.add u d) = db' := by simp [applyOp, hres]
      rw [happ]
      obtain ⟨up, dn, _, _, _, hwcc, rfl, _⟩ := add_lineage_ok hres
      have hiff := would_create_cycle_iff up.id dn.id (build_adjacency db.edges)
      rw [hwcc] at hiff
      have hno : ¬ (up.id = dn.id ∨ Reaches (build_adjacency db.edges) dn.id up.id) := by
        intro hr
        exact absurd (hiff.mpr hr) (by simp)
      have hnr : ¬ Relation.ReflTransGen (EdgeStep db.edges) dn.id up.id := by
        intro hr
        exact hno (Or.inr ((reaches_build_iff db.edges dn.id up.id).mpr hr))
      exact acyclic_append h hnr
  | remove u d =>
    cases hres : remove_lineage db u d with
    | error e =>
      have happ : applyOp db (.remove u d) = db := by simp [applyOp, hres]
      rw [happ]; exact h
    | ok db' =>
      have happ : applyOp db (.remove u d) = db' := by simp [applyOp, hres]
      rw [happ]
      obtain ⟨up, dn, rfl⟩ := remove_lineage_ok hres
      exact acyclic_erase _ h

/-- C2: acyclicity of the stored edge set is an invariant of every sequence
of edge-add and edge-remove operations — a successful `add_lineage` only
persists an edge after `would_create_cycle` over the full current edge set
came back false, `remove_lineage` only deletes, and a failed operation
leaves the state unchanged. -/
theorem C2_acyclicity_invariant (db : DBState) (ops : List LineageOp)
    (h : Acyclic db.edges) :
    Acyclic ((ops.foldl applyOp db).edges) := by
  induction ops generalizing db with
  | nil => exact h
  | cons op ops ih =>
    rw [List.foldl_cons]
    exact ih _ (applyOp_preserves_acyclic db op h)

/-- Two datasets and one successful edge-add, for the witness below. -/
def exampleDB : DBState :=
  { datasets :=
      [{ id := 1, fqn := "c.d.s.a", connection_name := "c", database_name := "d",
         schema_name := "s", table_name := "a", source_system := "Other",
         description := none, columns := [] },
       { id := 2, fqn := "c.d.s.b", connection_name := "c", database_name := "d",
         schema_name := "s", table_name := "b", source_system := "Other",
         description := none, columns := [] }],
    edges := [], nextId := 3 }

theorem C2_witness :
    Acyclic exampleDB.edges
    ∧ Acyclic (([LineageOp.add "c.d.s.a" "c.d.s.b",
        LineageOp.add "c.d.s.b" "c.d.s.a"].foldl applyOp exampleDB).edges) :=
  ⟨acyclic_nil,
   C2_acyclicity_invariant exampleDB
     [LineageOp.add "c.d.s.a" "c.d.s.b", LineageOp.add "c.d.s.b" "c.d.s.a"]
     acyclic_nil⟩

/-! ### Python string primitives

`str.strip()`, `str.lower()`, `str.upper()` modelled on the character
list (extensionally what `String.trim`, `String.toLower`, `String.toUpper`
compute, but written with structural recursion so the kernel can evaluate
them on concrete strings). -/

/-- Python `s.strip()`: drop leading and trailing whitespace. -/
def pyStrip (s : String) : String :=
  ⟨((s.data.dropWhile Char.isWhitespace).reverse.dropWhile Char.isWhitespace).reverse⟩

/-- Python `s.lower()`. -/
def pyLower (s : String) : String := ⟨s.data.map Char.toLower⟩

/-- Python `s.upper()`. -/
def pyUpper (s : String) : String := ⟨s.data.map Char.toUpper⟩

/-! ### `app/services/dataset_service.py` and `DatasetCreate`
(`app/schemas/dataset.py`) -/

structure ColumnPayload where
  name : String
  data_type : String
  description : Option String
deriving DecidableEq

structure DatasetCreatePayload where
  connection_name : String
  database_name : String
  schema_name : String
  table_name : String
  source_system : String
  description : Option String
  columns : List ColumnPayload
deriving DecidableEq

/-- `DatasetCreate.normalize_component`: `v.strip().lower()`. -/
def normalize_component (s : String) : String := pyLower (pyStrip s)

/-- The payload as pydantic validates it: the four identity components
normalized, column names stripped (`ColumnBase.strip_name`). -/
def validatePayload (p : DatasetCreatePayload) : DatasetCreatePayload :=
  { p with
    connection_name := normalize_component p.connection_name,
    database_name := normalize_component p.database_name,
    schema_name := normalize_component p.schema_name,
    table_name := normalize_component p.table_name,
    columns := p.columns.map fun c => { c with name := pyStrip c.name } }

/-- `DatasetCreate.fqn`: the dot-join of the four components. -/
def payloadFqn (p : DatasetCreatePayload) : String :=
  p.connection_name ++ "." ++ p.database_name ++ "." ++ p.schema_name ++ "."
    ++ p.table_name

/-- `dataset_service.create_dataset`, applied to an already-validated
payload: `Conflict` when the FQN exists, else persist the dataset with its
columns (`name.strip()`, `data_type.strip().upper()`). -/
def create_dataset (db : DBState) (q : DatasetCreatePayload) :
    Except ServiceError (DBState × DatasetRec) :=
  match get_dataset_by_fqn db (payloadFqn q) with
  | some _ => .error (.conflict ("Dataset '" ++ payloadFqn q ++ "' already exists."))
  | none =>
    let ds : DatasetRec :=
      { id := db.nextId, fqn := payloadFqn q,
        connection_name := q.connection_name,
        database_name := q.database_name,
        schema_name := q.schema_name,
        table_name := q.table_name,
        source_system := q.source_system,
        description := q.description,
        columns := q.columns.map fun c =>
          { name := pyStrip c.name, data_type := pyUpper (pyStrip c.data_type),
            description := c.description } }
    .ok ({ db with datasets := db.datasets ++ [ds], nextId := db.nextId + 1 }, ds)

/-- The `POST /datasets` pipeline: pydantic validation, then the service. -/
def route_create_dataset (db : DBState) (p : DatasetCreatePayload) :
    Except ServiceError (DBState × DatasetRec) :=
  create_dataset db (validatePayload p)

/-- C9: the dataset FQN is the dot-join of the trimmed, lower-cased
identity components; creation fails with `Conflict` exactly when that FQN
already exists; on success the dataset is persisted together with its
initial column list, each column name trimmed and each data-type label
upper-cased. -/
theorem C9_create_dataset_normalization (db : DBState) (p : DatasetCreatePayload) :
    (payloadFqn (validatePayload p)
      = pyLower (pyStrip p.connection_name) ++ "." ++ pyLower (pyStrip p.database_name) ++ "." ++ pyLower (pyStrip p.schema_name) ++ "." ++ pyLower (pyStrip p.table_name))
    ∧ (∀ ds0, get_dataset_by_fqn db (payloadFqn (validatePayload p)) = some ds0 →
        route_create_dataset db p = .error (.conflict
          ("Dataset '" ++ payloadFqn (validatePayload p) ++ "' already exists.")))
    ∧ (get_dataset_by_fqn db (payloadFqn (validatePayload p)) = none →
        route_create_dataset db p = .ok
          ({ db with
              datasets := db.datasets ++
                [{ id := db.nextId, fqn := payloadFqn (validatePayload p),
                   connection_name := pyLower (pyStrip p.connection_name),
                   database_name := pyLower (pyStrip p.database_name),
                   schema_name := pyLower (pyStrip p.schema_name),
                   table_name := pyLower (pyStrip p.table_name),
                   source_system := p.source_system,
                   description := p.description,
                   columns := p.columns.map fun c =>
                     { name := pyStrip (pyStrip c.name), data_type := pyUpper (pyStrip c.data_type),
                       description := c.description } }],
              nextId := db.nextId + 1 },
           { id := db.nextId, fqn := payloadFqn (validatePayload p),
             connection_name := pyLower (pyStrip p.connection_name),
             database_name := pyLower (pyStrip p.database_name),
             schema_name := pyLower (pyStrip p.schema_name),
             table_name := pyLower (pyStrip p.table_name),
             source_system := p.source_system,
             description := p.description,
             columns := p.columns.map fun c =>
               { name := pyStrip (pyStrip c.name), data_type := pyUpper (pyStrip c.data_type),
                 description := c.description } })) := by
  refine ⟨rfl, fun ds0 hsome => ?_, fun hnone => ?_⟩
  · rw [route_create_dataset, create_dataset, hsome]
  · rw [route_create_dataset, create_dataset, hnone]
    simp [validatePayload, normalize_component, Function.comp]

/-- A raw payload with un-normalized components and columns, for the
witness below. -/
def examplePayload : DatasetCreatePayload :=
  { connection_name := " Snowflake_Prod ", database_name := "Sales",
    schema_name := "Public", table_name := " Orders",
    source_system := "Snowflake", description := none,
    columns := [{ name := " order_id ", data_type := " int ", description := none }] }

theorem C9_witness :
    (get_dataset_by_fqn (DBState.mk [] [] 0)
        (payloadFqn (validatePayload examplePayload)) = none)
    ∧ route_create_dataset (DBState.mk [] [] 0) examplePayload = .ok
        ({ DBState.mk [] [] 0 with
            datasets := (DBState.mk [] [] 0).datasets ++
              [{ id := (DBState.mk [] [] 0).nextId,
                 fqn := payloadFqn (validatePayload examplePayload),
                 connection_name := pyLower (pyStrip examplePayload.connection_name),
                 database_name := pyLower (pyStrip examplePayload.database_name),
                 schema_name := pyLower (pyStrip examplePayload.schema_name),
                 table_name := pyLower (pyStrip examplePayload.table_name),
                 source_system := examplePayload.source_system,
                 description := examplePayload.description,
                 columns := examplePayload.columns.map fun c =>
                   { name := pyStrip (pyStrip c.name), data_type := pyUpper (pyStrip c.data_type),
                     description := c.description } }],
            nextId := (DBState.mk [] [] 0).nextId + 1 },
         { id := (DBState.mk [] [] 0).nextId,
           fqn := payloadFqn (validatePayload examplePayload),
           connection_name := pyLower (pyStrip examplePayload.connection_name),
           database_name := pyLower (pyStrip examplePayload.database_name),
           schema_name := pyLower (pyStrip examplePayload.schema_name),
           table_name := pyLower (pyStrip examplePayload.table_name),
           source_system := examplePayload.source_system,
           description := examplePayload.description,
           columns := examplePayload.columns.map fun c =>
             { name := pyStrip (pyStrip c.name), data_type := pyUpper (pyStrip c.data_type),
               description := c.description } }) :=
  ⟨rfl, (C9_create_dataset_normalization (DBState.mk [] [] 0) examplePayload).2.2 rfl⟩

/-! ### `app/services/search_service.py` -/

/-- SQL `ILIKE '%term%'`: case-insensitive substring containment. -/
def likeMatch (term s : String) : Prop :=
  (pyLower term).data <:+: (pyLower s).data

instance likeMatch.dec (term s : String) : Decidable (likeMatch term s) :=
  inferInstanceAs (Decidable (_ <:+: _))

/-- One entry of the search result list (the fields the ranking engine
computes; the embedded dataset is represented by its FQN identity). -/
structure SearchResultItem where
  fqn : String
  match_type : String
  matched_on : String
  priority : Nat
deriving DecidableEq

/-- The key of the final `results.sort`: ascending `(priority, fqn)`. -/
def resLE (a b : SearchResultItem) : Bool :=
  decide (a.priority < b.priority)
    || (a.priority == b.priority && decide (a.fqn ≤ b.fqn))

/-- Tier 1: the table component matches (`_PRIORITY["table_name"] = 1`). -/
def tier1 (db : DBState) (term : String) : List SearchResultItem :=
  (db.datasets.filter fun ds => decide (likeMatch term ds.table_name)).map fun ds =>
    { fqn := ds.fqn, match_type := "table_name", matched_on := ds.table_name,
      priority := 1 }

/-- A dataset owns a column whose name matches. -/
def colMatches (term : String) (ds : DatasetRec) : Bool :=
  ds.columns.any fun c => decide (likeMatch term c.name)

/-- `col_dataset_map.get(ds.id, term)`: the first matching column name of
the dataset (`setdefault` keeps the first one encountered), defaulting to
the search term. -/
def firstMatchingColumn (term : String) (ds : DatasetRec) : String :=
  match ds.columns.find? (fun c => decide (likeMatch term c.name)) with
  | some c => c.name
  | none => term

/-- Tier 2: some owned column name matches (`_PRIORITY["column_name"] = 2`). -/
def tier2 (db : DBState) (term : String) : List SearchResultItem :=
  (db.datasets.filter fun ds => colMatches term ds).map fun ds =>
    { fqn := ds.fqn, match_type := "column_name",
      matched_on := firstMatchingColumn term ds, priority := 2 }

/-- Tier 3: the schema component matches (`_PRIORITY["schema_name"] = 3`). -/
def tier3 (db : DBState) (term : String) : List SearchResultItem :=
  (db.datasets.filter fun ds => decide (likeMatch term ds.schema_name)).map fun ds =>
    { fqn := ds.fqn, match_type := "schema_name", matched_on := ds.schema_name,
      priority := 3 }

/-- Tier 4: the database component matches (`_PRIORITY["database_name"] = 4`). -/
def tier4 (db : DBState) (term : String) : List SearchResultItem :=
  (db.datasets.filter fun ds => decide (likeMatch term ds.database_name)).map fun ds =>
    { fqn := ds.fqn, match_type := "database_name", matched_on := ds.database_name,
      priority := 4 }

/-- The four `_add` loops run in ascending priority order: the candidate
stream the `seen_fqns` de-duplication consumes. -/
def tierCandidates (db : DBState) (term : String) : List SearchResultItem :=
  tier1 db term ++ tier2 db term ++ tier3 db term ++ tier4 db term

/-- One `_add(dataset, …)` call: skip when the FQN was already seen,
otherwise record the FQN and append the result. -/
def addResult (acc : List String × List SearchResultItem) (c : SearchResultItem) :
    List String × List SearchResultItem :=
  if c.fqn ∈ acc.1 then acc else (c.fqn :: acc.1, acc.2 ++ [c])

/-- The `seen_fqns`/`results` de-duplication pass over the candidates. -/
def dedupByFqn (cands : List SearchResultItem) : List SearchResultItem :=
  (cands.foldl addResult ([], [])).2

structure SearchResponse where
  query : String
  total : Nat
  results : List SearchResultItem
deriving DecidableEq

/-- `search_service.search_datasets`: empty or whitespace-only query gives
an empty response; otherwise run the four tiers, de-duplicate keeping the
highest-priority match, sort by `(priority, fqn)`, count the total, and
truncate to `limit` last. -/
def search_datasets (db : DBState) (query : String) (limit : Nat) : SearchResponse :=
  if pyStrip query = "" then { query := query, total := 0, results := [] }
  else
    let term := pyStrip query
    let results := (dedupByFqn (tierCandidates db term)).mergeSort resLE
    { query := term, total := results.length, results := results.take limit }

theorem resLE_trans (a b c : SearchResultItem) (hab : resLE a b = true)
    (hbc : resLE b c = true) : resLE a c = true := by
  simp only [resLE, Bool.or_eq_true, Bool.and_eq_true, decide_eq_true_eq,
    beq_iff_eq] at hab hbc ⊢
  rcases hab with h1 | ⟨h1, h2⟩ <;> rcases hbc with h3 | ⟨h3, h4⟩
  · exact Or.inl (h1.trans h3)
  · exact Or.inl (by omega)
  · exact Or.inl (by omega)
  · exact Or.inr ⟨by omega, le_trans h2 h4⟩

theorem resLE_total (a b : SearchResultItem) : (resLE a b || resLE b a) = true := by
  simp only [resLE, Bool.or_eq_true, Bool.and_eq_true, decide_eq_true_eq,
    beq_iff_eq]
  rcases Nat.lt_trichotomy a.priority b.priority with h | h | h
  · exact Or.inl (Or.inl h)
  · rcases le_total a.fqn b.fqn with h2 | h2
    · exact Or.inl (Or.inr ⟨h, h2⟩)
    · exact Or.inr (Or.inr ⟨h.symm, h2⟩)
  · exact Or.inr (Or.inl h)

/-- C6: the returned result list is sorted ascending by `(priority, FQN)`;
in particular the priorities are non-decreasing across the sequence. -/
theorem C6_search_results_sorted (db : DBState) (q : String) (limit : Nat) :
    List.Pairwise (fun a b => resLE a b = true) (search_datasets db q limit).results
    ∧ List.Pairwise (fun a b : SearchResultItem => a.priority ≤ b.priority)
        (search_datasets db q limit).results := by
  have hsorted : List.Pairwise (fun a b => resLE a b = true)
      (search_datasets db q limit).results := by
    by_cases hq : pyStrip q = ""
    · simp [search_datasets, hq]
    · simp only [search_datasets, if_neg hq]
      exact List.Pairwise.sublist (List.take_sublist _ _)
        (List.sorted_mergeSort resLE_trans
          (fun a b => resLE_total a b) (dedupByFqn (tierCandidates db (pyStrip q))))
  refine ⟨hsorted, hsorted.imp ?_⟩
  intro a b hab
  simp only [resLE, Bool.or_eq_true, Bool.and_eq_true, decide_eq_true_eq,
    beq_iff_eq] at hab
  rcases hab with h | ⟨h, _⟩
  · exact Nat.le_of_lt h
  · exact Nat.le_of_eq h

/-- The pure first-occurrence-per-FQN filter that the `seen_fqns` set
implements. -/
def firstPerKey (seen : List String) : List SearchResultItem → List SearchResultItem
  | [] => []
  | c :: cs =>
    if c.fqn ∈ seen then firstPerKey seen cs
    else c :: firstPerKey (c.fqn :: seen) cs

theorem foldl_addResult_eq (cands : List SearchResultItem) :
    ∀ (seen : List String) (acc : List SearchResultItem),
      (cands.foldl addResult (seen, acc)).2 = acc ++ firstPerKey seen cands := by
  induction cands with
  | nil => intro seen acc; simp [firstPerKey]
  | cons c cs ih =>
    intro seen acc
    rw [List.foldl_cons, firstPerKey]
    by_cases hc : c.fqn ∈ seen
    · rw [if_pos hc]
      have : addResult (seen, acc) c = (seen, acc) := by simp [addResult, hc]
      rw [this, ih]
    · rw [if_neg hc]
      have : addResult (seen, acc) c = (c.fqn :: seen, acc ++ [c]) := by
        simp [addResult, hc]
      rw [this, ih]
      simp

theorem mem_firstPerKey {cands : List SearchResultItem} :
    ∀ {seen : List String} {i : SearchResultItem},
      i ∈ firstPerKey seen cands ↔
        i.fqn ∉ seen ∧ cands.find? (fun j => j.fqn == i.fqn) = some i := by
  induction cands with
  | nil => intro seen i; simp [firstPerKey]
  | cons c cs ih =>
    intro seen i
    rw [firstPerKey]
    by_cases hc : c.fqn ∈ seen
    · rw [if_pos hc]
      by_cases he : c.fqn = i.fqn
      · constructor
        · intro hmem
          exact absurd (he ▸ hc) ((ih.mp hmem).1)
        · rintro ⟨hnot, _⟩
          exact absurd (he ▸ hc) hnot
      · rw [List.find?_cons_of_neg _ (by simpa using he)]
        exact ih
    · rw [if_neg hc]
      by_cases he : c.fqn = i.fqn
      · rw [List.find?_cons_of_pos _ (by simpa using he)]
        simp only [List.mem_cons]
        constructor
        · rintro (rfl | hmem)
          · exact ⟨he ▸ hc, rfl⟩
          · have hni := (ih.mp hmem).1
            exact absurd (List.mem_cons_self ..) ((he ▸ hni : i.fqn ∉ i.fqn :: seen))
        · rintro ⟨hnot, heq⟩
          exact Or.inl (Option.some.inj heq).symm
      · rw [List.find?_cons_of_neg _ (by simpa using he)]
        constructor
        · intro hmem
          rcases List.mem_cons.mp hmem with rfl | hmem
          · exact absurd rfl he
          · have h2 := ih.mp hmem
            exact ⟨fun hs => h2.1 (List.mem_cons_of_mem _ hs), h2.2⟩
        · rintro ⟨hnot, hfind⟩
          refine List.mem_cons_of_mem _ (ih.mpr ⟨?_, hfind⟩)
          intro hs
          rcases List.mem_cons.mp hs with h1 | h1
          · exact he h1.symm
          · exact hnot h1

theorem firstPerKey_fqn_nodup (cands : List SearchResultItem) :
    ∀ seen, ((firstPerKey seen cands).map (fun i => i.fqn)).Nodup := by
  induction cands with
  | nil => intro seen; simp [firstPerKey]
  | cons c cs ih =>
    intro seen
    rw [firstPerKey]
    by_cases hc : c.fqn ∈ seen
    · rw [if_pos hc]; exact ih seen
    · rw [if_neg hc]
      simp only [List.map_cons, List.nodup_cons]
      refine ⟨?_, ih _⟩
      intro hmem
      simp only [List.mem_map] at hmem
      obtain ⟨i, hi, hfqn⟩ := hmem
      have hni := (mem_firstPerKey.mp hi).1
      exact hni (by rw [hfqn]; exact List.mem_cons_self ..)

/-- Membership in the de-duplicated list is exactly being the first
candidate carrying one's FQN (shared helper). -/
theorem mem_dedupByFqn {cands : List SearchResultItem} {i : SearchResultItem} :
    i ∈ dedupByFqn cands ↔ cands.find? (fun j => j.fqn == i.fqn) = some i := by
  rw [dedupByFqn, foldl_addResult_eq, List.nil_append, mem_firstPerKey]
  simp

theorem dedupByFqn_fqn_nodup (cands : List SearchResultItem) :
    ((dedupByFqn cands).map (fun i => i.fqn)).Nodup := by
  rw [dedupByFqn, foldl_addResult_eq, List.nil_append]
  exact firstPerKey_fqn_nodup cands []

theorem find?_map_filter (l : List DatasetRec) (p : DatasetRec → Bool)
    (g : DatasetRec → SearchResultItem) (f : String)
    (hg : ∀ ds, (g ds).fqn = ds.fqn) :
    ((l.filter p).map g).find? (fun j => j.fqn == f)
      = (l.find? (fun ds => p ds && ds.fqn == f)).map g := by
  induction l with
  | nil => simp
  | cons d l ih =>
    by_cases hp : p d
    · rw [List.filter_cons_of_pos hp, List.map_cons]
      by_cases hf : d.fqn = f
      · rw [List.find?_cons_of_pos _ (by simp [hg, hf]),
          List.find?_cons_of_pos _ (by simp [hp, hf])]
        rfl
      · rw [List.find?_cons_of_neg _ (by simp [hg, hf]),
          List.find?_cons_of_neg _ (by simp [hf]), ih]
    · rw [List.filter_cons_of_neg hp,
        List.find?_cons_of_neg _ (by simp [hp]), ih]

theorem find?_by_fqn {l : List DatasetRec}
    (hn : (l.map (fun ds => ds.fqn)).Nodup) {ds : DatasetRec} (hmem : ds ∈ l)
    (p : DatasetRec → Bool) :
    l.find? (fun x => p x && x.fqn == ds.fqn)
      = if p ds then some ds else none := by
  induction l with
  | nil => cases hmem
  | cons d l ih =>
    simp only [List.map_cons, List.nodup_cons] at hn
    rcases List.mem_cons.mp hmem with rfl | hmem
    · by_cases hp : p ds
      · rw [List.find?_cons_of_pos _ (by simp [hp]), if_pos hp]
      · rw [List.find?_cons_of_neg _ (by simp [hp]), if_neg hp]
        rw [List.find?_eq_none]
        intro x hx
        have hne : x.fqn ≠ ds.fqn := by
          intro he
          exact hn.1 (by rw [← he]; exact List.mem_map_of_mem _ hx)
        simp [hne]
    · have hne : d.fqn ≠ ds.fqn := by
        intro he
        exact hn.1 (he ▸ List.mem_map_of_mem _ hmem)
      rw [List.find?_cons_of_neg _ (by simp [hne])]
      exact ih hn.2 hmem

/-- The result entry the spec's ranking rule assigns to a matching dataset:
its numerically lowest matching tier, with `matchedOn` the matching field
value (for the column tier, the first matching column name encountered).
Written from the spec's words, to be compared with the code's pipeline. -/
def specBestItem (term : String) (ds : DatasetRec) : SearchResultItem :=
  if likeMatch term ds.table_name then
    { fqn := ds.fqn, match_type := "table_name", matched_on := ds.table_name,
      priority := 1 }
  else if colMatches term ds then
    { fqn := ds.fqn, match_type := "column_name",
      matched_on := firstMatchingColumn term ds, priority := 2 }
  else if likeMatch term ds.schema_name then
    { fqn := ds.fqn, match_type := "schema_name", matched_on := ds.schema_name,
      priority := 3 }
  else
    { fqn := ds.fqn, match_type := "database_name", matched_on := ds.database_name,
      priority := 4 }

/-- A dataset matches some tier of the query. -/
def matchesSomeTier (term : String) (ds : DatasetRec) : Bool :=
  decide (likeMatch term ds.table_name) || colMatches term ds
    || decide (likeMatch term ds.schema_name)
    || decide (likeMatch term ds.database_name)

/-- Over an FQN-unique catalog, the first tier candidate carrying a
dataset's FQN is exactly the spec's best item for that dataset. -/
theorem find?_tierCandidates {db : DBState} {term : String}
    (hn : (db.datasets.map (fun ds => ds.fqn)).Nodup)
    {ds : DatasetRec} (hmem : ds ∈ db.datasets) :
    (tierCandidates db term).find? (fun j => j.fqn == ds.fqn)
      = if matchesSomeTier term ds then some (specBestItem term ds) else none := by
  rw [tierCandidates]
  rw [List.find?_append, List.find?_append, List.find?_append]
  rw [tier1, tier2, tier3, tier4]
  rw [find?_map_filter _ _ _ _ (fun x => rfl), find?_map_filter _ _ _ _ (fun x => rfl),
    find?_map_filter _ _ _ _ (fun x => rfl), find?_map_filter _ _ _ _ (fun x => rfl)]
  rw [find?_by_fqn hn hmem, find?_by_fqn hn hmem, find?_by_fqn hn hmem,
    find?_by_fqn hn hmem]
  by_cases h1 : likeMatch term ds.table_name
  · simp [matchesSomeTier, specBestItem, h1]
  · by_cases h2 : colMatches term ds
    · simp [matchesSomeTier, specBestItem, h1, h2]
    · by_cases h3 : likeMatch term ds.schema_name
      · simp [matchesSomeTier, specBestItem, h1, h2, h3]
      · by_cases h4 : likeMatch term ds.database_name
        · simp [matchesSomeTier, specBestItem, h1, h2, h3, h4]
        · simp [matchesSomeTier, specBestItem, h1, h2, h3, h4]

/-- Every tier candidate is produced by a catalog dataset with the same
FQN that matches some tier. -/
theorem mem_tierCandidates {db : DBState} {term : String} {i : SearchResultItem}
    (h : i ∈ tierCandidates db term) :
    ∃ ds ∈ db.datasets, ds.fqn = i.fqn ∧ matchesSomeTier term ds = true := by
  rw [tierCandidates] at h
  simp only [List.mem_append] at h
  have hcase : ∀ (p : DatasetRec → Bool) (g : DatasetRec → SearchResultItem),
      (∀ x, (g x).fqn = x.fqn) → (∀ x, p x → matchesSomeTier term x) →
      i ∈ (db.datasets.filter p).map g →
      ∃ ds ∈ db.datasets, ds.fqn = i.fqn ∧ matchesSomeTier term ds = true := by
    intro p g hg himp hi
    rw [List.mem_map] at hi
    obtain ⟨ds, hds, hgds⟩ := hi
    rw [List.mem_filter] at hds
    exact ⟨ds, hds.1, by rw [← hgds, hg], himp ds hds.2⟩
  rcases h with ((h | h) | h) | h
  · rw [tier1] at h
    exact hcase _ _ (fun x => rfl)
      (fun x hx => by simp only [matchesSomeTier, Bool.or_eq_true]; tauto) h
  · rw [tier2] at h
    exact hcase _ _ (fun x => rfl)
      (fun x hx => by simp only [matchesSomeTier, Bool.or_eq_true]; tauto) h
  · rw [tier3] at h
    exact hcase _ _ (fun x => rfl)
      (fun x hx => by simp only [matchesSomeTier, Bool.or_eq_true]; tauto) h
  · rw [tier4] at h
    exact hcase _ _ (fun x => rfl)
      (fun x hx => by simp only [matchesSomeTier, Bool.or_eq_true]; tauto) h

/-- C5: over an FQN-unique catalog, the search result list has at most one
entry per dataset identity, and the entry a dataset receives is the spec's
best item: its numerically lowest matching tier, with `matchedOn` the
matching field value (for the column tier, the first matching column name
encountered). -/
theorem C5_search_dedup_highest_priority (db : DBState) (q : String) (limit : Nat)
    (hn : (db.datasets.map (fun ds => ds.fqn)).Nodup) :
    (((search_datasets db q limit).results.map (fun i => i.fqn)).Nodup)
    ∧ (∀ i ∈ (search_datasets db q limit).results,
        ∃ ds ∈ db.datasets, ds.fqn = i.fqn ∧ matchesSomeTier (pyStrip q) ds = true
          ∧ i = specBestItem (pyStrip q) ds) := by
  by_cases hq : pyStrip q = ""
  · simp [search_datasets, hq]
  · simp only [search_datasets, if_neg hq]
    have hperm : ((dedupByFqn (tierCandidates db (pyStrip q))).mergeSort resLE).Perm
        (dedupByFqn (tierCandidates db (pyStrip q))) :=
      List.mergeSort_perm _ _
    have hnd : (((dedupByFqn (tierCandidates db (pyStrip q))).mergeSort resLE).map
        (fun i => i.fqn)).Nodup :=
      ((hperm.map _).nodup_iff).mpr (dedupByFqn_fqn_nodup _)
    constructor
    · rw [List.map_take]
      exact (List.take_sublist _ _).nodup hnd
    · intro i hi
      have hifull : i ∈ (dedupByFqn (tierCandidates db (pyStrip q))).mergeSort resLE :=
        (List.take_sublist _ _).subset hi
      have hidedup : i ∈ dedupByFqn (tierCandidates db (pyStrip q)) :=
        hperm.subset hifull
      have hfind := mem_dedupByFqn.mp hidedup
      have hicands : i ∈ tierCandidates db (pyStrip q) :=
        List.mem_of_find?_eq_some hfind
      obtain ⟨ds, hds, hfqn, hmatch⟩ := mem_tierCandidates hicands
      have hbest := @find?_tierCandidates db (pyStrip q) hn ds hds
      rw [if_pos hmatch, hfqn] at hbest
      rw [hbest] at hfind
      exact ⟨ds, hds, hfqn, hmatch, (Option.some.inj hfind).symm⟩

/-- The catalog of the spec's search scenario, for the witnesses below. -/
def exampleSearchDB : DBState :=
  { datasets :=
      [{ id := 1, fqn := "sf.bi.bronze.orders_raw", connection_name := "sf",
         database_name := "bi", schema_name := "bronze", table_name := "orders_raw",
         source_system := "Snowflake", description := none,
         columns := [{ name := "order_id", data_type := "INT", description := none }] },
       { id := 2, fqn := "mysql.other.other.shipments2", connection_name := "mysql",
         database_name := "other", schema_name := "other", table_name := "shipments2",
         source_system := "MySQL", description := none,
         columns := [{ name := "order_id", data_type := "INT", description := none }] }],
    edges := [], nextId := 3 }

theorem C5_witness :
    ((exampleSearchDB.datasets.map (fun ds => ds.fqn)).Nodup)
    ∧ (((search_datasets exampleSearchDB "orders" 50).results.map
        (fun i => i.fqn)).Nodup)
    ∧ (∀ i ∈ (search_datasets exampleSearchDB "orders" 50).results,
        ∃ ds ∈ exampleSearchDB.datasets, ds.fqn = i.fqn
          ∧ matchesSomeTier (pyStrip "orders") ds = true
          ∧ i = specBestItem (pyStrip "orders") ds) :=
  ⟨by decide,
   (C5_search_dedup_highest_priority exampleSearchDB "orders" 50 (by decide)).1,
   (C5_search_dedup_highest_priority exampleSearchDB "orders" 50 (by decide)).2⟩

/-- C7: the returned results are exactly the first `limit` entries of the
fully ranked, de-duplicated list — truncation happens only after the four
tiers are merged, de-duplicated and sorted, so every entry that is cut off
sorts at or after every entry that is kept, and `total` counts the full
list. -/
theorem C7_truncate_after_ranking (db : DBState) (q : String) (limit : Nat)
    (hq : ¬ pyStrip q = "") :
    ((search_datasets db q limit).results
        = ((dedupByFqn (tierCandidates db (pyStrip q))).mergeSort resLE).take limit)
    ∧ ((search_datasets db q limit).total
        = ((dedupByFqn (tierCandidates db (pyStrip q))).mergeSort resLE).length)
    ∧ ((((dedupByFqn (tierCandidates db (pyStrip q))).mergeSort resLE).map
        (fun i => i.fqn)).Nodup)
    ∧ (∀ y ∈ (search_datasets db q limit).results,
        ∀ x ∈ ((dedupByFqn (tierCandidates db (pyStrip q))).mergeSort resLE).drop limit,
          resLE y x = true) := by
  have h1 : (search_datasets db q limit).results
      = ((dedupByFqn (tierCandidates db (pyStrip q))).mergeSort resLE).take limit := by
    simp [search_datasets, hq]
  have h2 : (search_datasets db q limit).total
      = ((dedupByFqn (tierCandidates db (pyStrip q))).mergeSort resLE).length := by
    simp [search_datasets, hq]
  have hperm : ((dedupByFqn (tierCandidates db (pyStrip q))).mergeSort resLE).Perm
      (dedupByFqn (tierCandidates db (pyStrip q))) :=
    List.mergeSort_perm _ _
  have hnd : (((dedupByFqn (tierCandidates db (pyStrip q))).mergeSort resLE).map
      (fun i => i.fqn)).Nodup :=
    ((hperm.map _).nodup_iff).mpr (dedupByFqn_fqn_nodup _)
  refine ⟨h1, h2, hnd, ?_⟩
  have hsorted : List.Pairwise (fun a b => resLE a b = true)
      ((dedupByFqn (tierCandidates db (pyStrip q))).mergeSort resLE) :=
    List.sorted_mergeSort resLE_trans (fun a b => resLE_total a b) _
  have hsplit := (List.pairwise_append.mp
    (by rw [List.take_append_drop limit
        ((dedupByFqn (tierCandidates db (pyStrip q))).mergeSort resLE)]
        exact hsorted)).2.2
  intro y hy x hx
  rw [h1] at hy
  exact hsplit y hy x hx

theorem C7_witness :
    (¬ pyStrip "orders" = "")
    ∧ ((search_datasets exampleSearchDB "orders" 1).results
        = ((dedupByFqn (tierCandidates exampleSearchDB
            (pyStrip "orders"))).mergeSort resLE).take 1)
    ∧ (∀ y ∈ (search_datasets exampleSearchDB "orders" 1).results,
        ∀ x ∈ ((dedupByFqn (tierCandidates exampleSearchDB
            (pyStrip "orders"))).mergeSort resLE).drop 1,
          resLE y x = true) :=
  ⟨by decide,
   (C7_truncate_after_ranking exampleSearchDB "orders" 1 (by decide)).1,
   (C7_truncate_after_ranking exampleSearchDB "orders" 1 (by decide)).2.2.2⟩

end MetadataService
